import Mathlib

/-!
A verification development for the signature-based anagram engine in
`src/anagram.py`.

The Python program encodes words as products of per-letter primes, searches
for anagram combinations iteratively, and decomposes phrase signatures into
factor trees recursively.  The definitions below are a shallow embedding of
that code:

* Python's arbitrary-precision integers become `Nat`.
* The global `dictionary` (a signature -> word-list mapping) becomes an
  explicit parameter of type `Dict := Nat -> Option (List String)`;
  `dGet` models a `dictionary[x]` access (the program only performs such
  accesses on keys known to be present, so a missing key is modelled by
  the empty word list rather than a `KeyError`).
* The recursive functions `factor_to_tree` and `factor` are partial in
  Python (for pathological factor lists they recurse forever, and for a
  zero factor they raise `ZeroDivisionError`); they are embedded with an
  explicit fuel argument, `none` covering fuel exhaustion and the raised
  exception alike.
* Python's `int(value/number)` performs FLOAT (true) division and then
  truncates.  At every call site the code has already checked
  `value % number == 0`, so the mathematical quotient is an integer `q`
  and the float division returns the IEEE-754 double nearest `q`
  (round-half-to-even, 53-bit significand).  `roundEven53`/`pyIntDiv`
  model this exactly for quotients below 2^1024 (beyond that Python
  raises `OverflowError`; theorems that quantify over all values carry a
  `< 2^1024` or `< 2^53` bound to stay inside the faithful range).
* The float comparison `value/number == 1` in `factor` is true exactly
  when the real number `value/number` lies within half an ulp of `1.0`,
  i.e. in the closed interval `[1 - 2^-54, 1 + 2^-53]` (both midpoint
  ties round to `1.0`, whose significand is even).  Clearing
  denominators gives the integer test in `floatDivEqOne`.
* `round(len(base)/4)` in `iterative` divides by 4 exactly in floating
  point and Python's `round` is round-half-to-even, captured by
  `roundHalfEvenDiv4`.
-/

set_option maxRecDepth 4096

namespace Anagram

/-! ## The letter/prime table and the word encoder (`primes`, `prod`, `word_signature`) -/

/-- The fixed letter table of `anagram.py`: the 26 lowercase letters mapped to
the first 26 primes. -/
def primesList : List (Char × Nat) :=
  [('a', 2), ('b', 3), ('c', 5), ('d', 7), ('e', 11), ('f', 13), ('g', 17),
   ('h', 19), ('i', 23), ('j', 29), ('k', 31), ('l', 37), ('m', 41), ('n', 43),
   ('o', 47), ('p', 53), ('q', 59), ('r', 61), ('s', 67), ('t', 71), ('u', 73),
   ('v', 79), ('w', 83), ('x', 89), ('y', 97), ('z', 101)]

/-- `primes[c]` as a dictionary lookup; `none` models the `KeyError` raised on
a character outside the table. -/
def primesLookup (c : Char) : Option Nat := primesList.lookup c

/-- `prod`: `reduce(mul, iterable, 1)`, a left fold starting at 1. -/
def prodL (l : List Nat) : Nat := l.foldl (· * ·) 1

/-- The list comprehension `[primes[x] for x in word]`: `none` as soon as some
letter is missing from the table (Python raises `KeyError`). -/
def sigList : List Char → Option (List Nat)
  | [] => some []
  | c :: cs =>
    match primesLookup c, sigList cs with
    | some p, some ps => some (p :: ps)
    | _, _ => none

/-- `word_signature`: the product of the primes of the word's letters, or
`none` when a letter is outside the table. -/
def wordSignature (w : List Char) : Option Nat := (sigList w).map prodL

/-- Total extension of the prime table used only in proofs: characters outside
the table receive pairwise-distinct values above every table prime, making the
function globally injective. -/
def primeOf (c : Char) : Nat := (primesLookup c).getD (103 + c.toNat)

/-! ## The float-arithmetic model -/

/-- Fuel-indexed base-2 logarithm (`log2N fuel n = Nat.log2 n` whenever
`n ≤ fuel`); structural on the fuel so that the kernel can evaluate it. -/
def log2N : Nat → Nat → Nat
  | 0, _ => 0
  | fuel + 1, n => if n ≤ 1 then 0 else log2N fuel (n / 2) + 1

/-- Round a nonnegative integer to the nearest IEEE-754 double
(53-bit significand, ties to even), ignoring overflow: integers below `2^53`
are exact; larger ones are rounded at the scale `2^(log2 q - 52)`. -/
def roundEven53 (q : Nat) : Nat :=
  if q < 2 ^ 53 then q
  else
    let e := log2N q q - 52
    let m := q / 2 ^ e
    let r := q % 2 ^ e
    if 2 * r > 2 ^ e ∨ (2 * r = 2 ^ e ∧ m % 2 = 1) then (m + 1) * 2 ^ e
    else m * 2 ^ e

/-- Python's `int(a/b)` under the guarantee `b ∣ a` that holds at every call
site in `factor_to_tree` and `factor`: float division returns the double
nearest the exact quotient, and `int` of that integral double is itself. -/
def pyIntDiv (a b : Nat) : Nat := roundEven53 (a / b)

/-- Python's float test `a/b == 1` for positive integers: the correctly
rounded double of `a/b` is `1.0` iff `a/b ∈ [1 - 2^-54, 1 + 2^-53]`
(both endpoints are midpoint ties and round to even significand `1.0`).
Clearing denominators yields this integer test. -/
def floatDivEqOne (a b : Nat) : Bool :=
  decide ((2 ^ 54 - 1) * b ≤ 2 ^ 54 * a ∧ 2 ^ 53 * a ≤ (2 ^ 53 + 1) * b)

/-- Python's `round(n/4)`: `n/4` is an exact dyadic float, and `round` is
round-half-to-even. -/
def roundHalfEvenDiv4 (n : Nat) : Nat :=
  match n % 4 with
  | 2 => if n / 4 % 2 = 0 then n / 4 else n / 4 + 1
  | 3 => n / 4 + 1
  | _ => n / 4

/-! ## The dictionary -/

/-- The signature -> word-list mapping loaded from the pickle. -/
abbrev Dict := Nat → Option (List String)

/-- `dictionary[x]` on a key the program has already checked (or is about to
use) - a missing key is modelled by `[]`. -/
def dGet (d : Dict) (n : Nat) : List String := (d n).getD []

/-! ## Factor trees (`Node`, `factor_to_tree`) -/

/-- The instrumented skeleton of a factor tree: each node stores the numeric
factor consumed at that step (`number` for inner nodes, `value` itself for the
terminal leaf).  `factor_to_tree` stores `dictionary[number]` instead; the two
are related by `relabelNode` below. -/
inductive NodeS : Type where
  | mk (value : Nat) (children : List NodeS)
deriving Repr

/-- The stored factor of a skeleton node. -/
def NodeS.value : NodeS → Nat
  | .mk v _ => v

/-- The children of a skeleton node. -/
def NodeS.children : NodeS → List NodeS
  | .mk _ cs => cs

/-- A `Node` value as built by the Python code: inner nodes carry
`dictionary[number]` (a word list) and terminal leaves carry
`[dictionary[value]]` (a singleton list containing a word list). -/
inductive Label : Type where
  | ws (l : List String)
  | wsl (l : List (List String))
deriving Repr

/-- The `Node` class of `anagram.py` (value plus children). -/
inductive NodeL : Type where
  | mk (value : Label) (children : List NodeL)
deriving Repr

/-- Result of one pass over the factor list: `early r` models the `return`
statement that aborts the loop (discarding the accumulated factorizations),
`done r` models falling off the end of the loop. -/
inductive Loop (α : Type) : Type where
  | early (r : α)
  | done (r : α)

/-- Forget how the loop exited. -/
def Loop.out {α : Type} : Loop α → α
  | .early r => r
  | .done r => r

/-- Map over a loop result, preserving how the loop exited. -/
def Loop.map {α β : Type} (f : α → β) : Loop α → Loop β
  | .early r => .early (f r)
  | .done r => .done (f r)

/-- The `for number in numbers` loop of `factor_to_tree`, at the skeleton
level.  `recur` is the recursive call (already applied to the full factor
list).  Branch order follows the source: `value == number` returns the
terminal leaf immediately; a zero factor raises `ZeroDivisionError` (`none`);
an even proper divisor recurses on `int(value/number)` and appends a node
when the recursive forest is non-empty. -/
def ftLoopSig (recur : Nat → Option (List NodeS)) (v : Nat) :
    List Nat → Option (Loop (List NodeS))
  | [] => some (.done [])
  | n :: rest =>
    if v = n then some (.early [NodeS.mk v []])
    else if n = 0 then none
    else if v % n = 0 then
      match recur (pyIntDiv v n) with
      | none => none
      | some factored =>
        match ftLoopSig recur v rest with
        | none => none
        | some (.early f) => some (.early f)
        | some (.done tail) =>
          some (.done (if factored.length > 0 then NodeS.mk n factored :: tail else tail))
    else ftLoopSig recur v rest

/-- `factor_to_tree`, instrumented to store the numeric factors. -/
def factorToTreeSig : Nat → Nat → List Nat → Option (List NodeS)
  | 0, _, _ => none
  | fuel + 1, v, ns => (ftLoopSig (fun q => factorToTreeSig fuel q ns) v ns).map Loop.out

/-- The `for number in numbers` loop of `factor_to_tree` exactly as written:
inner nodes are labelled `dictionary[number]`, the terminal leaf
`[dictionary[value]]`. -/
def ftLoopL (d : Dict) (recur : Nat → Option (List NodeL)) (v : Nat) :
    List Nat → Option (Loop (List NodeL))
  | [] => some (.done [])
  | n :: rest =>
    if v = n then some (.early [NodeL.mk (.wsl [dGet d v]) []])
    else if n = 0 then none
    else if v % n = 0 then
      match recur (pyIntDiv v n) with
      | none => none
      | some factored =>
        match ftLoopL d recur v rest with
        | none => none
        | some (.early f) => some (.early f)
        | some (.done tail) =>
          some (.done (if factored.length > 0 then NodeL.mk (.ws (dGet d n)) factored :: tail else tail))
    else ftLoopL d recur v rest

/-- `factor_to_tree(value, numbers)` from `anagram.py` (fuel-indexed). -/
def factorToTree (d : Dict) : Nat → Nat → List Nat → Option (List NodeL)
  | 0, _, _ => none
  | fuel + 1, v, ns => (ftLoopL d (fun q => factorToTree d fuel q ns) v ns).map Loop.out

/-- Relabel a skeleton node the way `factor_to_tree` labels it: a childless
node is the terminal leaf `[dictionary[value]]`, an inner node carries
`dictionary[number]`. -/
def relabelNode (d : Dict) : NodeS → NodeL
  | .mk n [] => .mk (.wsl [dGet d n]) []
  | .mk n (c :: cs) =>
    .mk (.ws (dGet d n)) ((c :: cs).attach.map (fun t => relabelNode d t.1))
termination_by t => sizeOf t
decreasing_by
  have := List.sizeOf_lt_of_mem t.2
  simp only [NodeS.mk.sizeOf_spec]
  omega

/-- The products of the factors along every root-to-leaf path of a skeleton
node. -/
def nodePathProds : NodeS → List Nat
  | .mk v [] => [v]
  | .mk v (c :: cs) =>
    (((c :: cs).attach.map (fun t => nodePathProds t.1)).flatten).map (v * ·)
termination_by t => sizeOf t
decreasing_by
  have := List.sizeOf_lt_of_mem t.2
  simp only [NodeS.mk.sizeOf_spec]
  omega

/-- Root-to-leaf factor products of a whole forest. -/
def forestPathProds (f : List NodeS) : List Nat := (f.map nodePathProds).flatten

/-! ## The JSON-shaped factorizer (`factor`) -/

/-- A Python value produced by `factor`: either the word list
`dictionary[value]` (the terminal `return`), or a list of single-key
dictionaries `{str(dictionary[number]): factored}`. -/
inductive JVal : Type where
  | words (ws : List String)
  | forest (l : List (String × JVal))
deriving Repr

/-- Python's `len` on a `factor` result (a list either way). -/
def JVal.pyLen : JVal → Nat
  | .words ws => ws.length
  | .forest l => l.length

/-- The apostrophe character, kept out of string literals. -/
def pyQuote : String := String.singleton (Char.ofNat 39)

/-- Python's `str` of a list of (plain, quote-free) words, as used for the
keys `str(dictionary[number])`. -/
def pyStr (ws : List String) : String :=
  "[" ++ String.intercalate ", " (ws.map (fun w => pyQuote ++ w ++ pyQuote)) ++ "]"

/-- The `for number in numbers` loop of `factor`.  Branch order follows the
source: `value % number == 0 and int(value/number) != 1` recurses and appends
`{str(dictionary[number]): factored}` when `len(factored) != 0` (the
`type(factored) is int` disjunct is vacuous, dictionary values being word
lists); otherwise the float test `value/number == 1` returns
`dictionary[value]`.  A later `return` (a `words` result from the rest of the
loop) discards the accumulated list, exactly like the Python `return`. -/
def jLoop (d : Dict) (recur : Nat → Option JVal) (v : Nat) :
    List Nat → Option JVal
  | [] => some (.forest [])
  | n :: rest =>
    if n = 0 then none
    else if v % n = 0 ∧ pyIntDiv v n ≠ 1 then
      match recur (pyIntDiv v n) with
      | none => none
      | some factored =>
        match jLoop d recur v rest with
        | none => none
        | some (.words w) => some (.words w)
        | some (.forest l) =>
          some (.forest (if 0 < factored.pyLen then (pyStr (dGet d n), factored) :: l else l))
    else if floatDivEqOne v n then some (.words (dGet d v))
    else jLoop d recur v rest

/-- `factor(value, numbers)` from `anagram.py` (fuel-indexed). -/
def factorF (d : Dict) : Nat → Nat → List Nat → Option JVal
  | 0, _, _ => none
  | fuel + 1, v, ns => jLoop d (fun q => factorF d fuel q ns) v ns

/-- `true` exactly on the forest shape `[Node(value, [])]` produced by the
terminal `return` of `factor_to_tree`. -/
def isLeafSingleton (v : Nat) : List NodeS → Bool
  | [NodeS.mk n []] => n == v
  | _ => false

/-- Translate a skeleton forest for value `v` into the value `factor` would
build: the terminal singleton leaf becomes the word list `dictionary[value]`,
anything else the list of single-key maps. -/
def jOfSig (d : Dict) (v : Nat) (f : List NodeS) : JVal :=
  if isLeafSingleton v f then .words (dGet d v)
  else .forest (f.attach.map
    (fun t => (pyStr (dGet d t.1.value), jOfSig d (v / t.1.value) t.1.children)))
termination_by sizeOf f
decreasing_by
  have h1 := List.sizeOf_lt_of_mem t.2
  have h2 : sizeOf t.1.children < sizeOf t.1 := by
    cases t.1 with
    | mk a cs => simp only [NodeS.children, NodeS.mk.sizeOf_spec]; omega
  omega

/-- The expected `factor` result corresponding to one exit of the
`factor_to_tree` loop over the same factors. -/
def loopExpect (d : Dict) (v : Nat) : Loop (List NodeS) → JVal
  | .early _ => .words (dGet d v)
  | .done f =>
    .forest (f.map (fun t => (pyStr (dGet d t.value), jOfSig d (v / t.value) t.children)))

/-- Root-to-leaf decompositions of a `factor` result: the chain of keys
followed by the terminal word list. -/
def jvalDecomps : JVal → List (List String × List String)
  | .words ws => [([], ws)]
  | .forest l =>
    (l.attach.map (fun kv => (jvalDecomps kv.1.2).map (fun p => (kv.1.1 :: p.1, p.2)))).flatten
termination_by j => sizeOf j
decreasing_by
  have h1 := List.sizeOf_lt_of_mem kv.2
  have h2 : sizeOf kv.1.2 < sizeOf kv.1 := by
    cases kv.1; simp
  simp only [JVal.forest.sizeOf_spec]
  omega

/-- Root-to-leaf decompositions of one `factor_to_tree` node, with inner
labels rendered through `str` so that they are comparable with `factor`
keys. -/
def nodeLDecomps : NodeL → List (List String × List String)
  | .mk (.wsl l) _ => l.map (fun ws => ([], ws))
  | .mk (.ws l) cs =>
    (((cs.attach.map (fun c => nodeLDecomps c.1)).flatten).map
      (fun p => (pyStr l :: p.1, p.2)))
termination_by t => sizeOf t
decreasing_by
  have := List.sizeOf_lt_of_mem c.2
  simp only [NodeL.mk.sizeOf_spec]
  omega

/-- Root-to-leaf decompositions of a `factor_to_tree` forest. -/
def treeForestDecomps (f : List NodeL) : List (List String × List String) :=
  (f.map nodeLDecomps).flatten

/-! ## The iterative pipeline
(`sub_word_signatures`, `pre_filter`, `combs_by_size`, `prod_and_filter`,
`prepare_data`, `iterative`) -/

/-- `pre_filter(combs)`: the summed length of the first dictionary word of
each signature equals the phrase length. -/
def preFilter (d : Dict) (base : List Char) (combs : List Nat) : Bool :=
  decide ((combs.map (fun x => ((dGet d x).headD "").length)).sum = base.length)

/-- `combs_by_size(size)`: all size-`size` combinations of the sub-signature
list (Python's `set(combinations(perms, size))`, order abstracted), filtered
by `pre_filter`. -/
def combsBySize (d : Dict) (base : List Char) (perms : List Nat) (size : Nat) :
    List (List Nat) :=
  ((List.sublistsLen size perms).dedup).filter (preFilter d base)

/-- `prod_and_filter(combination)`: the combination when its signature product
matches the phrase signature, `False` (here `none`) otherwise. -/
def prodAndFilter (baseSignature : Nat) (c : List Nat) : Option (List Nat) :=
  if prodL c = baseSignature then some c else none

/-- `sub_word_signatures(word)`: signatures of all letter combinations of every
length, deduplicated, kept when present in the dictionary, sorted descending. -/
def subWordSignatures (d : Dict) (w : List Char) : List Nat :=
  (((((List.range' 1 w.length).map (fun i => List.sublistsLen i w)).flatten).filterMap
      wordSignature).dedup.filter (fun s => (d s).isSome)).mergeSort
    (fun a b => decide (b ≤ a))

/-- `prepare_data(word)`: join the argument words, lowercase (`str.lower` acts
characterwise, here `Char.toLower` over the joined characters), compute the
phrase signature (a `KeyError` on a letter outside the table is `none`), then
enumerate the sub-signatures.  Returns `(base, base_signature, perms)`. -/
def prepareData (d : Dict) (words : List String) : Option (List Char × Nat × List Nat) :=
  let base := ((String.join words).data).map Char.toLower
  match wordSignature base with
  | none => none
  | some s => some (base, s, subWordSignatures d base)

/-- `max_words` in `iterative`: `min(round(len(base)/4) + 1, 5)`. -/
def maxWordsOf (base : List Char) : Nat :=
  min (roundHalfEvenDiv4 base.length + 1) 5

/-- `all_combs` in `iterative`: the concatenation of `combs_by_size(k)` for
`k in range(1, max_words)` (worker-pool order abstracted; theorems quantify
over permutations of this list). -/
def allCombsList (d : Dict) (base : List Char) (perms : List Nat) (mw : Nat) :
    List (List Nat) :=
  ((List.range' 1 (mw - 1)).map (combsBySize d base perms)).flatten

/-- The combinations `iterative` prints: survivors of `prod_and_filter` that
are truthy (a non-empty tuple). -/
def iterativeEmitted (d : Dict) (base : List Char) (baseSignature : Nat)
    (perms : List Nat) : List (List Nat) :=
  ((allCombsList d base perms (maxWordsOf base)).filterMap
      (prodAndFilter baseSignature)).filter (fun c => !c.isEmpty)

end Anagram

namespace Anagram

/-! ## Letter-encoder lemmas -/

theorem prodL_eq_prod (l : List Nat) : prodL l = l.prod :=
  (List.prod_eq_foldl).symm

theorem lookup_pair_mem {l : List (Char × Nat)} {c : Char} {p : Nat}
    (h : l.lookup c = some p) : (c, p) ∈ l := by
  rcases List.lookup_eq_some_iff.mp h with ⟨l₁, l₂, rfl, -⟩
  exact List.mem_append_right _ (List.mem_cons_self _ _)

theorem primesLookup_prime {c : Char} {p : Nat} (h : primesLookup c = some p) :
    Nat.Prime p := by
  have hm := lookup_pair_mem h
  have hall : ∀ x ∈ primesList, Nat.Prime x.2 := by decide
  exact hall _ hm

theorem primesLookup_le {c : Char} {p : Nat} (h : primesLookup c = some p) :
    p ≤ 101 := by
  have hm := lookup_pair_mem h
  have hall : ∀ x ∈ primesList, x.2 ≤ 101 := by decide
  exact hall _ hm

theorem primesLookup_inj {c₁ c₂ : Char} {p : Nat}
    (h₁ : primesLookup c₁ = some p) (h₂ : primesLookup c₂ = some p) : c₁ = c₂ := by
  have hm₁ := lookup_pair_mem h₁
  have hm₂ := lookup_pair_mem h₂
  have hall : ∀ x ∈ primesList, ∀ y ∈ primesList, x.2 = y.2 → x.1 = y.1 := by decide
  exact hall _ hm₁ _ hm₂ rfl

theorem primeOf_injective : Function.Injective primeOf := by
  intro c₁ c₂ h
  unfold primeOf at h
  cases h₁ : primesLookup c₁ with
  | some p₁ =>
    cases h₂ : primesLookup c₂ with
    | some p₂ =>
      rw [h₁, h₂] at h
      simp only [Option.getD_some] at h
      exact primesLookup_inj h₁ (by rw [h]; exact h₂)
    | none =>
      rw [h₁, h₂] at h
      simp only [Option.getD_some, Option.getD_none] at h
      have := primesLookup_le h₁
      omega
  | none =>
    cases h₂ : primesLookup c₂ with
    | some p₂ =>
      rw [h₁, h₂] at h
      simp only [Option.getD_some, Option.getD_none] at h
      have := primesLookup_le h₂
      omega
    | none =>
      rw [h₁, h₂] at h
      simp only [Option.getD_none] at h
      have ht : c₁.toNat = c₂.toNat := by omega
      have hv : c₁.val = c₂.val := by
        unfold Char.toNat at ht
        exact UInt32.toNat.inj ht
      exact Char.eq_of_val_eq hv

theorem sigList_eq_map {w : List Char} (h : ∀ c ∈ w, (primesLookup c).isSome) :
    sigList w = some (w.map primeOf) := by
  induction w with
  | nil => rfl
  | cons c cs ih =>
    have hc : (primesLookup c).isSome := h c (List.mem_cons_self _ _)
    rcases Option.isSome_iff_exists.mp hc with ⟨p, hp⟩
    have hcs := ih (fun x hx => h x (List.mem_cons_of_mem _ hx))
    have hpo : primeOf c = p := by unfold primeOf; rw [hp]; rfl
    simp [sigList, hp, hcs, hpo]

theorem sigList_eq_none {w : List Char} {c : Char} (hc : c ∈ w)
    (hn : primesLookup c = none) : sigList w = none := by
  induction w with
  | nil => cases hc
  | cons a as ih =>
    rcases List.mem_cons.mp hc with rfl | hmem
    · simp [sigList, hn]
    · cases ha : primesLookup a <;> simp [sigList, ha, ih hmem]

theorem wordSignature_eq_of_valid {w : List Char}
    (h : ∀ c ∈ w, (primesLookup c).isSome) :
    wordSignature w = some ((w.map primeOf).prod) := by
  unfold wordSignature
  rw [sigList_eq_map h]
  simp [prodL_eq_prod]

theorem primeOf_prime_of_valid {w : List Char}
    (h : ∀ c ∈ w, (primesLookup c).isSome) :
    ∀ p ∈ w.map primeOf, Nat.Prime p := by
  intro p hp
  rcases List.mem_map.mp hp with ⟨c, hc, rfl⟩
  rcases Option.isSome_iff_exists.mp (h c hc) with ⟨q, hq⟩
  have hpo : primeOf c = q := by unfold primeOf; rw [hq]; rfl
  rw [hpo]
  exact primesLookup_prime hq

theorem prime_lists_perm {l₁ l₂ : List Nat} (h₁ : ∀ p ∈ l₁, Nat.Prime p)
    (h₂ : ∀ p ∈ l₂, Nat.Prime p) (he : l₁.prod = l₂.prod) : l₁.Perm l₂ :=
  (Nat.primeFactorsList_unique rfl h₁).trans
    (Nat.primeFactorsList_unique he.symm h₂).symm

/-- C1: for every two finite multisets of table letters, `word_signature`
assigns them equal signatures if and only if they are identical multisets -
signature equality is exactly letter-multiset equality, with no false
positives (unique factorization, the letter table being injective into the
primes). -/
theorem C1_signature_eq_iff_multiset_eq (w₁ w₂ : List Char)
    (h₁ : ∀ c ∈ w₁, (primesLookup c).isSome)
    (h₂ : ∀ c ∈ w₂, (primesLookup c).isSome) :
    wordSignature w₁ = wordSignature w₂ ↔
      (w₁ : Multiset Char) = (w₂ : Multiset Char) := by
  rw [wordSignature_eq_of_valid h₁, wordSignature_eq_of_valid h₂, Multiset.coe_eq_coe]
  constructor
  · intro h
    have hprod : (w₁.map primeOf).prod = (w₂.map primeOf).prod := Option.some.inj h
    have hperm : (w₁.map primeOf).Perm (w₂.map primeOf) :=
      prime_lists_perm (primeOf_prime_of_valid h₁) (primeOf_prime_of_valid h₂) hprod
    have hmul : Multiset.map primeOf (↑w₁) = Multiset.map primeOf (↑w₂) := by
      rw [Multiset.map_coe, Multiset.map_coe]
      exact Multiset.coe_eq_coe.mpr hperm
    exact Multiset.coe_eq_coe.mp (Multiset.map_injective primeOf_injective hmul)
  · intro h
    exact congrArg some (h.map primeOf).prod_eq

/-- Witness for C1 at the concrete multisets `ab` and `ba`. -/
theorem C1_witness :
    wordSignature ['a', 'b'] = wordSignature ['b', 'a'] ↔
      ((['a', 'b'] : List Char) : Multiset Char) =
        ((['b', 'a'] : List Char) : Multiset Char) :=
  C1_signature_eq_iff_multiset_eq ['a', 'b'] ['b', 'a'] (by decide) (by decide)

/-- C8: for every sequence of table letters and every permutation of it,
`word_signature` returns the same signature. -/
theorem C8_signature_perm_invariant (w₁ w₂ : List Char)
    (h₁ : ∀ c ∈ w₁, (primesLookup c).isSome) (hp : w₁.Perm w₂) :
    wordSignature w₁ = wordSignature w₂ := by
  have h₂ : ∀ c ∈ w₂, (primesLookup c).isSome := fun c hc => h₁ c (hp.mem_iff.mpr hc)
  rw [wordSignature_eq_of_valid h₁, wordSignature_eq_of_valid h₂]
  exact congrArg some (hp.map primeOf).prod_eq

/-- Witness for C8: `listen` and `silent` are permutations with equal
signatures. -/
theorem C8_witness :
    wordSignature ['l', 'i', 's', 't', 'e', 'n'] =
      wordSignature ['s', 'i', 'l', 'e', 'n', 't'] :=
  C8_signature_perm_invariant _ _ (by decide) (by decide)

end Anagram

namespace Anagram

/-! ## Float-model lemmas -/

theorem log2N_spec : ∀ fuel n, 1 ≤ n → n ≤ fuel →
    2 ^ log2N fuel n ≤ n ∧ n < 2 ^ (log2N fuel n + 1) := by
  intro fuel
  induction fuel with
  | zero => intro n h1 h2; omega
  | succ fuel ih =>
    intro n h1 h2
    by_cases hn : n ≤ 1
    · have hone : n = 1 := by omega
      subst hone
      simp [log2N]
    · have h2' : n / 2 ≤ fuel := by omega
      have h1' : 1 ≤ n / 2 := by omega
      have hih := ih (n / 2) h1' h2'
      simp only [log2N, if_neg hn]
      have hp1 : 2 ^ (log2N fuel (n / 2) + 1) = 2 ^ log2N fuel (n / 2) * 2 := by
        rw [pow_succ]
      have hp2 : 2 ^ (log2N fuel (n / 2) + 1 + 1) = 2 ^ (log2N fuel (n / 2) + 1) * 2 := by
        rw [pow_succ]
      omega

theorem roundEven53_small {q : Nat} (h : q < 2 ^ 53) : roundEven53 q = q := by
  unfold roundEven53
  rw [if_pos h]

theorem roundEven53_bounds (q : Nat) (h1 : 1 ≤ q) :
    1 ≤ roundEven53 q ∧ roundEven53 q < 2 * q := by
  unfold roundEven53
  by_cases h : q < 2 ^ 53
  · simp only [if_pos h]
    omega
  · simp only [if_neg h]
    have hspec := log2N_spec q q h1 (le_refl q)
    have hL53 : 53 ≤ log2N q q := by
      by_contra hc
      push_neg at hc
      have hmono : 2 ^ (log2N q q + 1) ≤ 2 ^ 53 :=
        Nat.pow_le_pow_right (by norm_num) (by omega)
      omega
    have he1 : 1 ≤ log2N q q - 52 := by omega
    have hpe : 2 ^ (log2N q q - 52) ≤ 2 ^ (log2N q q - 1) :=
      Nat.pow_le_pow_right (by norm_num) (by omega)
    have hpL : 2 ^ (log2N q q - 1) * 2 = 2 ^ log2N q q := by
      rw [← pow_succ]
      congr 1
      omega
    have hpos : 1 ≤ 2 ^ (log2N q q - 1) := Nat.one_le_two_pow
    have h2eq : 2 ^ (log2N q q - 52) < q := by omega
    have hm : q / 2 ^ (log2N q q - 52) * 2 ^ (log2N q q - 52) ≤ q :=
      Nat.div_mul_le_self _ _
    have hm1 : 1 ≤ q / 2 ^ (log2N q q - 52) :=
      (Nat.one_le_div_iff (Nat.pos_pow_of_pos _ (by norm_num))).mpr (le_of_lt h2eq)
    have hppos : 1 ≤ 2 ^ (log2N q q - 52) := Nat.one_le_two_pow
    split
    · have hdist : (q / 2 ^ (log2N q q - 52) + 1) * 2 ^ (log2N q q - 52) =
        q / 2 ^ (log2N q q - 52) * 2 ^ (log2N q q - 52) + 2 ^ (log2N q q - 52) := by
        ring
      omega
    · constructor
      · calc 1 = 1 * 1 := by norm_num
          _ ≤ q / 2 ^ (log2N q q - 52) * 2 ^ (log2N q q - 52) :=
            Nat.mul_le_mul hm1 hppos
      · omega

theorem pyIntDiv_exact {v n : Nat} (h : v < 2 ^ 53) : pyIntDiv v n = v / n :=
  roundEven53_small (lt_of_le_of_lt (Nat.div_le_self _ _) h)

theorem pyIntDiv_pos_lt {v n : Nat} (h2 : 2 ≤ n) (hd : n ∣ v) (h1 : 1 ≤ v) :
    1 ≤ pyIntDiv v n ∧ pyIntDiv v n < v := by
  have hn : n ≤ v := Nat.le_of_dvd (by omega) hd
  have hq1 : 1 ≤ v / n := (Nat.one_le_div_iff (by omega)).mpr hn
  have hmul : n * (v / n) = v := Nat.mul_div_cancel' hd
  have h2q : 2 * (v / n) ≤ v := by
    calc 2 * (v / n) ≤ n * (v / n) := Nat.mul_le_mul_right _ h2
      _ = v := hmul
  have hb := roundEven53_bounds (v / n) hq1
  unfold pyIntDiv
  omega

theorem floatDivEqOne_iff {v n : Nat} (hv : v < 2 ^ 53) (hn : 1 ≤ n) :
    floatDivEqOne v n = true ↔ v = n := by
  simp only [floatDivEqOne, decide_eq_true_eq]
  constructor
  · rintro ⟨hA, hB⟩
    norm_num at hA hB hv
    omega
  · rintro rfl
    constructor
    · exact Nat.mul_le_mul_right _ (by norm_num)
    · exact Nat.mul_le_mul_right _ (by norm_num)

end Anagram

namespace Anagram

/-! ## Loop-level lemmas for the recursive factorizers -/

theorem ftLoopSig_nil (recur : Nat → Option (List NodeS)) (v : Nat) :
    ftLoopSig recur v [] = some (.done []) := rfl

theorem ftLoopSig_cons (recur : Nat → Option (List NodeS)) (v n : Nat)
    (rest : List Nat) :
    ftLoopSig recur v (n :: rest) =
      if v = n then some (.early [NodeS.mk v []])
      else if n = 0 then none
      else if v % n = 0 then
        match recur (pyIntDiv v n) with
        | none => none
        | some factored =>
          match ftLoopSig recur v rest with
          | none => none
          | some (.early f) => some (.early f)
          | some (.done tail) =>
            some (.done (if factored.length > 0 then NodeS.mk n factored :: tail else tail))
      else ftLoopSig recur v rest := rfl

theorem jLoop_nil (d : Dict) (recur : Nat → Option JVal) (v : Nat) :
    jLoop d recur v [] = some (.forest []) := rfl

theorem jLoop_cons (d : Dict) (recur : Nat → Option JVal) (v n : Nat)
    (rest : List Nat) :
    jLoop d recur v (n :: rest) =
      if n = 0 then none
      else if v % n = 0 ∧ pyIntDiv v n ≠ 1 then
        match recur (pyIntDiv v n) with
        | none => none
        | some factored =>
          match jLoop d recur v rest with
          | none => none
          | some (.words w) => some (.words w)
          | some (.forest l) =>
            some (.forest (if 0 < factored.pyLen then (pyStr (dGet d n), factored) :: l else l))
      else if floatDivEqOne v n then some (.words (dGet d v))
      else jLoop d recur v rest := rfl

theorem ftLoopSig_congr {recur recur' : Nat → Option (List NodeS)} {v : Nat} :
    ∀ rest : List Nat,
      (∀ n ∈ rest, n ≠ 0 → v % n = 0 → recur (pyIntDiv v n) = recur' (pyIntDiv v n)) →
      ftLoopSig recur v rest = ftLoopSig recur' v rest := by
  intro rest
  induction rest with
  | nil => intro _; rfl
  | cons n rest ih =>
    intro h
    have hn := h n (List.mem_cons_self _ _)
    have hrest := ih (fun x hx => h x (List.mem_cons_of_mem _ hx))
    rw [ftLoopSig_cons, ftLoopSig_cons]
    split_ifs with h1 h2 h3
    · rfl
    · rfl
    · rw [hn h2 h3, hrest]
    · exact hrest

theorem ftLoopSig_isSome {recur : Nat → Option (List NodeS)} {v : Nat} :
    ∀ rest : List Nat, (∀ n ∈ rest, n ≠ 0) →
      (∀ n ∈ rest, v % n = 0 → (recur (pyIntDiv v n)).isSome) →
      (ftLoopSig recur v rest).isSome := by
  intro rest
  induction rest with
  | nil => intro _ _; rfl
  | cons n rest ih =>
    intro h0 h
    have hn := h n (List.mem_cons_self _ _)
    have hrest := ih (fun x hx => h0 x (List.mem_cons_of_mem _ hx))
      (fun x hx => h x (List.mem_cons_of_mem _ hx))
    rw [ftLoopSig_cons]
    split_ifs with h1 h2 h3
    · rfl
    · cases h0 n (List.mem_cons_self _ _) h2
    · cases hr : recur (pyIntDiv v n) with
      | none => rw [hr] at hn; cases hn h3
      | some factored =>
        cases hl : ftLoopSig recur v rest with
        | none => rw [hl] at hrest; cases hrest
        | some L => cases L <;> rfl
    · exact hrest

theorem jLoop_isSome {d : Dict} {recur : Nat → Option JVal} {v : Nat} :
    ∀ rest : List Nat, (∀ n ∈ rest, n ≠ 0) →
      (∀ n ∈ rest, v % n = 0 → (recur (pyIntDiv v n)).isSome) →
      (jLoop d recur v rest).isSome := by
  intro rest
  induction rest with
  | nil => intro _ _; rfl
  | cons n rest ih =>
    intro h0 h
    have hn := h n (List.mem_cons_self _ _)
    have hrest := ih (fun x hx => h0 x (List.mem_cons_of_mem _ hx))
      (fun x hx => h x (List.mem_cons_of_mem _ hx))
    rw [jLoop_cons]
    split_ifs with h1 h2 h3
    · cases h0 n (List.mem_cons_self _ _) h1
    · cases hr : recur (pyIntDiv v n) with
      | none => rw [hr] at hn; cases hn h2.1
      | some factored =>
        cases hl : jLoop d recur v rest with
        | none => rw [hl] at hrest; cases hrest
        | some J => cases J <;> rfl
    · rfl
    · exact hrest

end Anagram

namespace Anagram

/-! ## Stability, termination and shape of the recursive factorizers -/

theorem factorToTreeSig_unfold (fuel v : Nat) (ns : List Nat) :
    factorToTreeSig (fuel + 1) v ns =
      (ftLoopSig (fun q => factorToTreeSig fuel q ns) v ns).map Loop.out := rfl

theorem factorF_unfold (d : Dict) (fuel v : Nat) (ns : List Nat) :
    factorF d (fuel + 1) v ns = jLoop d (fun q => factorF d fuel q ns) v ns := rfl

theorem factorToTreeSig_stable_aux {ns : List Nat} (hns : ∀ n ∈ ns, 2 ≤ n) :
    ∀ v, 1 ≤ v → ∀ fuel, v < fuel →
      factorToTreeSig fuel v ns = factorToTreeSig (v + 1) v ns := by
  intro v
  induction v using Nat.strong_induction_on with
  | _ v ih =>
    intro h1 fuel hf
    obtain ⟨fuel', rfl⟩ : ∃ f, fuel = f + 1 := ⟨fuel - 1, by omega⟩
    rw [factorToTreeSig_unfold, factorToTreeSig_unfold]
    congr 1
    apply ftLoopSig_congr
    intro n hn hn0 hmod
    have h2n : 2 ≤ n := hns n hn
    have hdvd : n ∣ v := Nat.dvd_of_mod_eq_zero hmod
    have hq := pyIntDiv_pos_lt h2n hdvd h1
    have e1 := ih (pyIntDiv v n) hq.2 hq.1 fuel' (by omega)
    have e2 := ih (pyIntDiv v n) hq.2 hq.1 v hq.2
    rw [e1, e2]

theorem factorToTreeSig_stable {ns : List Nat} (hns : ∀ n ∈ ns, 2 ≤ n)
    {v fuel₁ fuel₂ : Nat} (h1 : 1 ≤ v) (hf₁ : v < fuel₁) (hf₂ : v < fuel₂) :
    factorToTreeSig fuel₁ v ns = factorToTreeSig fuel₂ v ns :=
  (factorToTreeSig_stable_aux hns v h1 fuel₁ hf₁).trans
    (factorToTreeSig_stable_aux hns v h1 fuel₂ hf₂).symm

theorem factorToTreeSig_isSome {ns : List Nat} (hns : ∀ n ∈ ns, 2 ≤ n) :
    ∀ v, 1 ≤ v → ∀ fuel, v < fuel → (factorToTreeSig fuel v ns).isSome := by
  intro v
  induction v using Nat.strong_induction_on with
  | _ v ih =>
    intro h1 fuel hf
    obtain ⟨fuel', rfl⟩ : ∃ f, fuel = f + 1 := ⟨fuel - 1, by omega⟩
    rw [factorToTreeSig_unfold]
    have hloop : (ftLoopSig (fun q => factorToTreeSig fuel' q ns) v ns).isSome := by
      apply ftLoopSig_isSome ns (fun n hn => by have := hns n hn; omega)
      intro n hn hmod
      have h2n : 2 ≤ n := hns n hn
      have hdvd : n ∣ v := Nat.dvd_of_mod_eq_zero hmod
      have hq := pyIntDiv_pos_lt h2n hdvd h1
      exact ih (pyIntDiv v n) hq.2 hq.1 fuel' (by omega)
    cases hl : ftLoopSig (fun q => factorToTreeSig fuel' q ns) v ns with
    | none => rw [hl] at hloop; cases hloop
    | some L => rfl

theorem factorF_isSome (d : Dict) {ns : List Nat} (hns : ∀ n ∈ ns, 2 ≤ n) :
    ∀ v, 1 ≤ v → ∀ fuel, v < fuel → (factorF d fuel v ns).isSome := by
  intro v
  induction v using Nat.strong_induction_on with
  | _ v ih =>
    intro h1 fuel hf
    obtain ⟨fuel', rfl⟩ : ∃ f, fuel = f + 1 := ⟨fuel - 1, by omega⟩
    rw [factorF_unfold]
    apply jLoop_isSome ns (fun n hn => by have := hns n hn; omega)
    intro n hn hmod
    have h2n : 2 ≤ n := hns n hn
    have hdvd : n ∣ v := Nat.dvd_of_mod_eq_zero hmod
    have hq := pyIntDiv_pos_lt h2n hdvd h1
    exact ih (pyIntDiv v n) hq.2 hq.1 fuel' (by omega)

theorem ftLoopSig_shape {recur : Nat → Option (List NodeS)} {v : Nat} {ns : List Nat} :
    ∀ rest : List Nat, rest ⊆ ns →
      (∀ f, ftLoopSig recur v rest = some (.early f) → f = [NodeS.mk v []] ∧ v ∈ ns) ∧
      (∀ f, ftLoopSig recur v rest = some (.done f) →
        ∀ t ∈ f, t.value ∈ ns ∧ t.value ≠ v ∧ t.children ≠ []) := by
  intro rest
  induction rest with
  | nil =>
    intro _
    constructor
    · intro f hf
      rw [ftLoopSig_nil] at hf
      simp at hf
    · intro f hf
      rw [ftLoopSig_nil] at hf
      simp only [Option.some.injEq, Loop.done.injEq] at hf
      subst hf
      intro t ht
      cases ht
  | cons n rest ih =>
    intro hsub
    have hns : n ∈ ns := hsub (List.mem_cons_self _ _)
    have ihr := ih (fun x hx => hsub (List.mem_cons_of_mem _ hx))
    constructor
    · intro f hf
      rw [ftLoopSig_cons] at hf
      by_cases h1 : v = n
      · rw [if_pos h1] at hf
        simp only [Option.some.injEq, Loop.early.injEq] at hf
        subst hf
        exact ⟨rfl, h1 ▸ hns⟩
      · rw [if_neg h1] at hf
        by_cases h2 : n = 0
        · rw [if_pos h2] at hf
          cases hf
        · rw [if_neg h2] at hf
          by_cases h3 : v % n = 0
          · rw [if_pos h3] at hf
            cases hr : recur (pyIntDiv v n) with
            | none => rw [hr] at hf; cases hf
            | some factored =>
              rw [hr] at hf
              cases hl : ftLoopSig recur v rest with
              | none => rw [hl] at hf; cases hf
              | some L =>
                rw [hl] at hf
                cases L with
                | early f' =>
                  simp only [Option.some.injEq, Loop.early.injEq] at hf
                  subst hf
                  exact ihr.1 f' hl
                | done tail => simp at hf
          · rw [if_neg h3] at hf
            exact ihr.1 f hf
    · intro f hf
      rw [ftLoopSig_cons] at hf
      by_cases h1 : v = n
      · rw [if_pos h1] at hf
        simp at hf
      · rw [if_neg h1] at hf
        by_cases h2 : n = 0
        · rw [if_pos h2] at hf
          cases hf
        · rw [if_neg h2] at hf
          by_cases h3 : v % n = 0
          · rw [if_pos h3] at hf
            cases hr : recur (pyIntDiv v n) with
            | none => rw [hr] at hf; cases hf
            | some factored =>
              rw [hr] at hf
              cases hl : ftLoopSig recur v rest with
              | none => rw [hl] at hf; cases hf
              | some L =>
                rw [hl] at hf
                cases L with
                | early f' => simp at hf
                | done tail =>
                  simp only [Option.some.injEq, Loop.done.injEq] at hf
                  split at hf
                  · subst hf
                    intro t ht
                    rcases List.mem_cons.mp ht with rfl | hmem
                    · refine ⟨hns, ?_, ?_⟩
                      · show n ≠ v
                        exact fun he => h1 he.symm
                      · show factored ≠ []
                        intro he
                        subst he
                        simp at *
                    · exact ihr.2 tail hl t hmem
                  · subst hf
                    intro t ht
                    exact ihr.2 tail hl t ht
          · rw [if_neg h3] at hf
            exact ihr.2 f hf

theorem factorToTreeSig_shape {fuel v : Nat} {ns : List Nat} {f : List NodeS}
    (h : factorToTreeSig fuel v ns = some f) :
    ∀ t ∈ f, (t = NodeS.mk v [] ∧ v ∈ ns) ∨
      (t.value ∈ ns ∧ t.value ≠ v ∧ t.children ≠ []) := by
  cases fuel with
  | zero => cases h
  | succ fuel =>
    rw [factorToTreeSig_unfold] at h
    cases hl : ftLoopSig (fun q => factorToTreeSig fuel q ns) v ns with
    | none => rw [hl] at h; cases h
    | some L =>
      rw [hl] at h
      have hshape := @ftLoopSig_shape (fun q => factorToTreeSig fuel q ns) v ns
        ns (fun x hx => hx)
      cases L with
      | early f' =>
        simp only [Option.map_some', Option.some.injEq, Loop.out] at h
        subst h
        have := hshape.1 f' hl
        intro t ht
        rw [this.1] at ht
        rcases List.mem_singleton.mp ht with rfl
        exact Or.inl ⟨rfl, this.2⟩
      | done f' =>
        simp only [Option.map_some', Option.some.injEq, Loop.out] at h
        subst h
        intro t ht
        exact Or.inr (hshape.2 f' hl t ht)

end Anagram

namespace Anagram

/-! ## `factor_to_tree` is the relabelling of its numeric skeleton -/

theorem list_attach_map {α β : Type _} (l : List α) (f : α → β) :
    l.attach.map (fun t => f t.1) = l.map f := by
  induction l with
  | nil => rfl
  | cons a as ih => simp

theorem relabelNode_leaf (d : Dict) (n : Nat) :
    relabelNode d (.mk n []) = .mk (.wsl [dGet d n]) [] := by
  rw [relabelNode]

theorem relabelNode_node (d : Dict) (n : Nat) (c : NodeS) (cs : List NodeS) :
    relabelNode d (.mk n (c :: cs)) =
      .mk (.ws (dGet d n)) ((c :: cs).map (relabelNode d)) := by
  rw [relabelNode, list_attach_map]

theorem ftLoopL_nil (d : Dict) (recur : Nat → Option (List NodeL)) (v : Nat) :
    ftLoopL d recur v [] = some (.done []) := rfl

theorem ftLoopL_cons (d : Dict) (recur : Nat → Option (List NodeL)) (v n : Nat)
    (rest : List Nat) :
    ftLoopL d recur v (n :: rest) =
      if v = n then some (.early [NodeL.mk (.wsl [dGet d v]) []])
      else if n = 0 then none
      else if v % n = 0 then
        match recur (pyIntDiv v n) with
        | none => none
        | some factored =>
          match ftLoopL d recur v rest with
          | none => none
          | some (.early f) => some (.early f)
          | some (.done tail) =>
            some (.done (if factored.length > 0 then
              NodeL.mk (.ws (dGet d n)) factored :: tail else tail))
      else ftLoopL d recur v rest := rfl

theorem factorToTree_unfold (d : Dict) (fuel v : Nat) (ns : List Nat) :
    factorToTree d (fuel + 1) v ns =
      (ftLoopL d (fun q => factorToTree d fuel q ns) v ns).map Loop.out := rfl

theorem ftLoopL_eq_relabel (d : Dict) {recurL : Nat → Option (List NodeL)}
    {recurS : Nat → Option (List NodeS)} {v : Nat}
    (h : ∀ q, recurL q = (recurS q).map (List.map (relabelNode d))) :
    ∀ rest, ftLoopL d recurL v rest =
      (ftLoopSig recurS v rest).map (Loop.map (List.map (relabelNode d))) := by
  intro rest
  induction rest with
  | nil => rfl
  | cons n rest ih =>
    rw [ftLoopL_cons, ftLoopSig_cons]
    by_cases h1 : v = n
    · rw [if_pos h1, if_pos h1]
      simp [Loop.map, relabelNode_leaf]
    · rw [if_neg h1, if_neg h1]
      by_cases h2 : n = 0
      · rw [if_pos h2, if_pos h2]
        rfl
      · rw [if_neg h2, if_neg h2]
        by_cases h3 : v % n = 0
        · rw [if_pos h3, if_pos h3]
          rw [h (pyIntDiv v n)]
          cases hs : recurS (pyIntDiv v n) with
          | none => rfl
          | some factored =>
            rw [ih]
            cases hl : ftLoopSig recurS v rest with
            | none => rfl
            | some L =>
              cases L with
              | early f' => rfl
              | done tail =>
                show some (Loop.done (if (factored.map (relabelNode d)).length > 0 then
                    NodeL.mk (.ws (dGet d n)) (factored.map (relabelNode d)) ::
                      tail.map (relabelNode d)
                  else tail.map (relabelNode d))) =
                  some (Loop.map (List.map (relabelNode d))
                    (.done (if factored.length > 0 then NodeS.mk n factored :: tail else tail)))
                simp only [List.length_map, Loop.map]
                by_cases hlen : factored.length > 0
                · rw [if_pos hlen, if_pos hlen]
                  cases factored with
                  | nil => simp at hlen
                  | cons c cs =>
                    simp only [List.map_cons, Option.some.injEq, Loop.done.injEq,
                      relabelNode_node]
                · rw [if_neg hlen, if_neg hlen]
        · rw [if_neg h3, if_neg h3]
          exact ih

theorem factorToTree_eq_relabel (d : Dict) :
    ∀ fuel v ns, factorToTree d fuel v ns =
      (factorToTreeSig fuel v ns).map (List.map (relabelNode d)) := by
  intro fuel
  induction fuel with
  | zero => intro v ns; rfl
  | succ fuel ih =>
    intro v ns
    rw [factorToTree_unfold, factorToTreeSig_unfold,
      ftLoopL_eq_relabel d (fun q => ih q ns)]
    cases ftLoopSig (fun q => factorToTreeSig fuel q ns) v ns with
    | none => rfl
    | some L => cases L <;> rfl

end Anagram

namespace Anagram

/-! ## Dictionary signatures are at least 2 -/

theorem sigList_mem_table {w : List Char} {l : List Nat} (h : sigList w = some l) :
    ∀ p ∈ l, ∃ c, primesLookup c = some p := by
  induction w generalizing l with
  | nil =>
    simp only [sigList, Option.some.injEq] at h
    subst h
    intro p hp
    cases hp
  | cons c cs ih =>
    simp only [sigList] at h
    cases hc : primesLookup c with
    | none => rw [hc] at h; cases h
    | some p =>
      rw [hc] at h
      cases hcs : sigList cs with
      | none => rw [hcs] at h; cases h
      | some ps =>
        rw [hcs] at h
        simp only [Option.some.injEq] at h
        subst h
        intro q hq
        rcases List.mem_cons.mp hq with rfl | hmem
        · exact ⟨c, hc⟩
        · exact ih hcs q hmem

theorem wordSignature_two_le {w : List Char} {s : Nat}
    (h : wordSignature w = some s) (h1 : s ≠ 1) : 2 ≤ s := by
  unfold wordSignature at h
  cases hs : sigList w with
  | none => rw [hs] at h; cases h
  | some l =>
    rw [hs] at h
    simp only [Option.map_some', Option.some.injEq] at h
    subst h
    have hmem := sigList_mem_table hs
    cases l with
    | nil => simp [prodL] at h1
    | cons p ps =>
      rcases hmem p (List.mem_cons_self _ _) with ⟨c, hc⟩
      have hp2 : 2 ≤ p := (primesLookup_prime hc).two_le
      have hpos : 0 < ps.prod := by
        apply List.prod_pos
        intro a ha
        rcases hmem a (List.mem_cons_of_mem _ ha) with ⟨c', hc'⟩
        exact (primesLookup_prime hc').pos
      rw [prodL_eq_prod, List.prod_cons]
      calc 2 = 2 * 1 := by norm_num
        _ ≤ p * ps.prod := Nat.mul_le_mul hp2 hpos

/-- C10: for every positive value below the float-overflow bound and every
factor list whose elements are at least 2 (as every dictionary signature is,
being a non-empty product of table primes - last conjunct), both recursive
factorizers terminate once the fuel exceeds the value, because each recursive
call strictly decreases the value being factored (third conjunct). -/
theorem C10_factorizers_terminate (d : Dict) (v fuel : Nat) (ns : List Nat)
    (h1 : 1 ≤ v) (hov : v < 2 ^ 1024) (hns : ∀ n ∈ ns, 2 ≤ n) (hf : v < fuel) :
    (factorToTree d fuel v ns).isSome ∧ (factorF d fuel v ns).isSome ∧
    (∀ n ∈ ns, n ∣ v → 1 ≤ pyIntDiv v n ∧ pyIntDiv v n < v) ∧
    (∀ w s, wordSignature w = some s → s ≠ 1 → 2 ≤ s) := by
  refine ⟨?_, factorF_isSome d hns v h1 fuel hf, ?_, ?_⟩
  · rw [factorToTree_eq_relabel]
    have hsome := factorToTreeSig_isSome hns v h1 fuel hf
    cases hs : factorToTreeSig fuel v ns with
    | none => rw [hs] at hsome; cases hsome
    | some f => rfl
  · intro n hn hdvd
    exact pyIntDiv_pos_lt (hns n hn) hdvd h1
  · intro w s hw hs1
    exact wordSignature_two_le hw hs1

/-- Witness for C10 at value 6, factors `[2, 3]`, fuel 7. -/
theorem C10_witness :
    (factorToTree (fun _ => none) 7 6 [2, 3]).isSome ∧
    (factorF (fun _ => none) 7 6 [2, 3]).isSome ∧
    (∀ n ∈ [2, 3], n ∣ 6 → 1 ≤ pyIntDiv 6 n ∧ pyIntDiv 6 n < 6) ∧
    (∀ w s, wordSignature w = some s → s ≠ 1 → 2 ≤ s) :=
  C10_factorizers_terminate (fun _ => none) 6 7 [2, 3] (by norm_num) (by norm_num)
    (by decide) (by norm_num)

/-- C3: the claimed invariant (every leaf consumes the remainder down to 1,
and every root-to-leaf factor product equals the original value) is broken by
the code's float division `int(value/number)`: factoring
`value = 27021597764222979 = 3 * (2^53 + 1)` over `[3, 2^53]` recurses on the
rounded quotient `2^53` instead of `2^53 + 1`, producing the single
decomposition path `3 * 2^53 = 27021597764222976 ≠ value` whose leaf leaves a
remainder other than 1.  (`factorToTree_eq_relabel` shows this skeleton is
exactly the `factor_to_tree` forest with its dictionary labels stripped.) -/
theorem C3_leaf_and_path_product_invariant_fails :
    factorToTreeSig 60 27021597764222979 [3, 9007199254740992] =
      some [NodeS.mk 3 [NodeS.mk 9007199254740992 []]] ∧
    forestPathProds [NodeS.mk 3 [NodeS.mk 9007199254740992 []]] =
      [27021597764222976] ∧
    (27021597764222976 : Nat) ≠ 27021597764222979 := by
  refine ⟨rfl, ?_, by norm_num⟩
  simp [forestPathProds, nodePathProds]

/-- C5: signature arithmetic in the recursive factorizers is NOT exact:
`int(value/number)` is float division, and at
`value = 27021597764222979 = 3 * 9007199254740993` with factor 3 the recursive
call receives the rounded `9007199254740992` instead of the exact quotient
`9007199254740993` (the last conjunct shows the resulting forest decomposing
the wrong remainder). -/
theorem C5_recursive_call_receives_rounded_quotient :
    27021597764222979 = 3 * 9007199254740993 ∧
    pyIntDiv 27021597764222979 3 = 9007199254740992 ∧
    pyIntDiv 27021597764222979 3 ≠ 27021597764222979 / 3 ∧
    factorToTreeSig 60 27021597764222979 [3, 9007199254740992] =
      some [NodeS.mk 3 [NodeS.mk 9007199254740992 []]] :=
  ⟨by norm_num, rfl, by decide, rfl⟩

end Anagram

namespace Anagram

/-! ## C4: which root-level decompositions the tree factorizer returns -/

/-- C4 fails as stated: at `value = 4` with factor list `[2, 4]`, the factor 2
properly divides 4 and its recursive decomposition `[Node 2]` is non-empty, so
the claim demands a root node for factor 2 - but the `return` executed when
the loop reaches the factor 4 discards it, and the returned forest is just the
terminal leaf. -/
theorem C4_counterexample :
    factorToTreeSig 10 4 [2, 4] = some [NodeS.mk 4 []] ∧
    factorToTreeSig 9 2 [2, 4] = some [NodeS.mk 2 []] ∧
    ∀ t ∈ [NodeS.mk 4 []], t.value ≠ 2 := by
  refine ⟨rfl, rfl, ?_⟩
  intro t ht
  rcases List.mem_singleton.mp ht with rfl
  simp [NodeS.value]

theorem ftLoopSig_early_of_mem {recur : Nat → Option (List NodeS)} {v : Nat} :
    ∀ rest : List Nat, (∀ n ∈ rest, n ≠ 0) →
      (∀ n ∈ rest, v % n = 0 → (recur (pyIntDiv v n)).isSome) →
      v ∈ rest →
      ftLoopSig recur v rest = some (.early [NodeS.mk v []]) := by
  intro rest
  induction rest with
  | nil => intro _ _ hv; cases hv
  | cons n rest ih =>
    intro h0 hrec hv
    rw [ftLoopSig_cons]
    by_cases h1 : v = n
    · rw [if_pos h1]
    · rw [if_neg h1]
      have hvrest : v ∈ rest := by
        rcases List.mem_cons.mp hv with h | h
        · exact absurd h h1
        · exact h
      rw [if_neg (h0 n (List.mem_cons_self _ _))]
      have ihr := ih (fun x hx => h0 x (List.mem_cons_of_mem _ hx))
        (fun x hx hm => hrec x (List.mem_cons_of_mem _ hx) hm) hvrest
      by_cases h3 : v % n = 0
      · rw [if_pos h3]
        cases hr : recur (pyIntDiv v n) with
        | none =>
          have hsome := hrec n (List.mem_cons_self _ _) h3
          rw [hr] at hsome
          cases hsome
        | some factored =>
          rw [ihr]
      · rw [if_neg h3]
        exact ihr

theorem ftLoopSig_done_complete {recur : Nat → Option (List NodeS)} {v : Nat} :
    ∀ rest : List Nat, (∀ n ∈ rest, n ≠ 0) →
      (∀ n ∈ rest, v % n = 0 → (recur (pyIntDiv v n)).isSome) →
      v ∉ rest →
      ∃ f, ftLoopSig recur v rest = some (.done f) ∧
        ∀ n ∈ rest, v % n = 0 → ∀ c, recur (pyIntDiv v n) = some c → c ≠ [] →
          NodeS.mk n c ∈ f := by
  intro rest
  induction rest with
  | nil =>
    intro _ _ _
    exact ⟨[], rfl, fun n hn => absurd hn (List.not_mem_nil n)⟩
  | cons n rest ih =>
    intro h0 hrec hv
    have hvn : v ≠ n := fun he => hv (he ▸ List.mem_cons_self _ _)
    have hvrest : v ∉ rest := fun hm => hv (List.mem_cons_of_mem _ hm)
    obtain ⟨tail, htail, hcomp⟩ := ih (fun x hx => h0 x (List.mem_cons_of_mem _ hx))
      (fun x hx hm => hrec x (List.mem_cons_of_mem _ hx) hm) hvrest
    rw [ftLoopSig_cons, if_neg hvn, if_neg (h0 n (List.mem_cons_self _ _))]
    by_cases h3 : v % n = 0
    · rw [if_pos h3]
      cases hr : recur (pyIntDiv v n) with
      | none =>
        have hsome := hrec n (List.mem_cons_self _ _) h3
        rw [hr] at hsome
        cases hsome
      | some factored =>
        rw [htail]
        refine ⟨if factored.length > 0 then NodeS.mk n factored :: tail else tail,
          rfl, ?_⟩
        intro m hm hmod c hc hcne
        rcases List.mem_cons.mp hm with rfl | hmem
        · rw [hr] at hc
          have hcf : factored = c := Option.some.inj hc
          subst hcf
          have hlen : factored.length > 0 := by
            cases factored with
            | nil => cases hcne rfl
            | cons a as => simp
          rw [if_pos hlen]
          exact List.mem_cons_self _ _
        · have hmemtail := hcomp m hmem hmod c hc hcne
          by_cases hlen : factored.length > 0
          · rw [if_pos hlen]
            exact List.mem_cons_of_mem _ hmemtail
          · rw [if_neg hlen]
            exact hmemtail
    · rw [if_neg h3]
      refine ⟨tail, htail, ?_⟩
      intro m hm hmod c hc hcne
      rcases List.mem_cons.mp hm with rfl | hmem
      · exact absurd hmod h3
      · exact hcomp m hmem hmod c hc hcne

/-- C4 amended: in the exact-arithmetic regime, if some factor equals the
value the function returns ONLY the single terminal leaf (decompositions from
the other factors are discarded by the early `return`); otherwise, for each
factor `n` in the list that properly divides the value and whose recursive
decomposition of `value / n` is non-empty, the corresponding root node appears
in the forest - nothing else is omitted. -/
theorem C4_amended_root_decompositions (v fuel : Nat) (ns : List Nat)
    (h1 : 1 ≤ v) (h53 : v < 2 ^ 53) (hns : ∀ n ∈ ns, 2 ≤ n) (hf : v < fuel) :
    (v ∈ ns → factorToTreeSig fuel v ns = some [NodeS.mk v []]) ∧
    (v ∉ ns → ∀ n ∈ ns, n ∣ v →
      ∀ c, factorToTreeSig v (v / n) ns = some c → c ≠ [] →
        NodeS.mk n c ∈ (factorToTreeSig fuel v ns).getD []) := by
  obtain ⟨fuel', rfl⟩ : ∃ f, fuel = f + 1 := ⟨fuel - 1, by omega⟩
  have h0 : ∀ n ∈ ns, n ≠ 0 := fun n hn => by have := hns n hn; omega
  have hrec : ∀ n ∈ ns, v % n = 0 →
      (factorToTreeSig fuel' (pyIntDiv v n) ns).isSome := by
    intro n hn hmod
    have hq := pyIntDiv_pos_lt (hns n hn) (Nat.dvd_of_mod_eq_zero hmod) h1
    exact factorToTreeSig_isSome hns (pyIntDiv v n) hq.1 fuel' (by omega)
  constructor
  · intro hv
    rw [factorToTreeSig_unfold,
      @ftLoopSig_early_of_mem (fun q => factorToTreeSig fuel' q ns) v ns h0 hrec hv]
    rfl
  · intro hv n hn hdvd c hc hcne
    obtain ⟨f, hdone, hcomp⟩ := @ftLoopSig_done_complete
      (fun q => factorToTreeSig fuel' q ns) v ns h0 hrec hv
    rw [factorToTreeSig_unfold, hdone]
    simp only [Option.map_some', Loop.out, Option.getD_some]
    have hmod : v % n = 0 := Nat.mod_eq_zero_of_dvd hdvd
    apply hcomp n hn hmod c ?_ hcne
    show factorToTreeSig fuel' (pyIntDiv v n) ns = some c
    have hq := pyIntDiv_pos_lt (hns n hn) hdvd h1
    rw [pyIntDiv_exact h53] at hq ⊢
    rw [factorToTreeSig_stable hns hq.1 (by omega) hq.2]
    exact hc

/-- Witness for the amended C4 at value 6 over factors `[2, 3]`: the root node
for factor 2 with the decomposition of 3 as its child is in the forest. -/
theorem C4_witness :
    NodeS.mk 2 [NodeS.mk 3 []] ∈ (factorToTreeSig 7 6 [2, 3]).getD [] := by
  have h := C4_amended_root_decompositions 6 7 [2, 3] (by norm_num) (by norm_num)
    (by decide) (by norm_num)
  exact h.2 (by decide) 2 (by decide) (by norm_num) [NodeS.mk 3 []] rfl (by simp)

end Anagram

namespace Anagram

/-! ## Input validation (`prepare_data`) - C6 -/

theorem wordSignature_eq_none {w : List Char} {c : Char} (hc : c ∈ w)
    (hn : primesLookup c = none) : wordSignature w = none := by
  unfold wordSignature
  rw [sigList_eq_none hc hn]
  rfl

/-- C6 amended: a phrase containing a character outside the letter table makes
`prepare_data` fail (the `KeyError` from the prime lookup inside
`word_signature`, modelled by `none`) before the sub-signature enumeration or
any search runs.  An EMPTY normalized phrase, contrary to the claim, does not
fail - see the counterexample theorem. -/
theorem C6_invalid_letter_fails_before_search (d : Dict) (words : List String)
    (h : ∃ c ∈ ((String.join words).data).map Char.toLower, primesLookup c = none) :
    prepareData d words = none := by
  obtain ⟨c, hc, hn⟩ := h
  unfold prepareData
  simp only [wordSignature_eq_none hc hn]

/-- Witness for the amended C6: the phrase `a1` contains the non-table
character `1` and `prepare_data` fails on it. -/
theorem C6_witness : prepareData (fun _ => none) ["a1"] = none :=
  C6_invalid_letter_fails_before_search _ _ ⟨'1', by decide, by decide⟩

theorem mergeSort_nil_eq {α : Type _} (le : α → α → Bool) :
    List.mergeSort [] le = [] :=
  List.perm_nil.mp (List.mergeSort_perm [] le)

theorem mergeSort_singleton_eq {α : Type _} (a : α) (le : α → α → Bool) :
    List.mergeSort [a] le = [a] :=
  List.perm_singleton.mp (List.mergeSort_perm [a] le)

theorem subWordSignatures_eq_nil (d : Dict) (w : List Char)
    (h : (((((List.range' 1 w.length).map (fun i => List.sublistsLen i w)).flatten).filterMap
      wordSignature).dedup.filter (fun s => (d s).isSome)) = []) :
    subWordSignatures d w = [] := by
  unfold subWordSignatures
  rw [h]
  exact mergeSort_nil_eq _

theorem subWordSignatures_eq_single (d : Dict) (w : List Char) (x : Nat)
    (h : (((((List.range' 1 w.length).map (fun i => List.sublistsLen i w)).flatten).filterMap
      wordSignature).dedup.filter (fun s => (d s).isSome)) = [x]) :
    subWordSignatures d w = [x] := by
  unfold subWordSignatures
  rw [h]
  exact mergeSort_singleton_eq x _

/-- C6 is false for the empty phrase: an input that is empty after
normalization is NOT rejected - `word_signature` of the empty letter list is
the empty product 1, `prepare_data` succeeds, and the search runs (over an
empty sub-signature set). -/
theorem C6_counterexample :
    prepareData (fun _ => none) [""] = some ([], 1, []) := by
  have hsub : subWordSignatures (fun _ => none) [] = [] :=
    subWordSignatures_eq_nil _ _ (by decide)
  unfold prepareData
  simp only [show ((String.join [""]).data).map Char.toLower = ([] : List Char) from rfl]
  rw [show wordSignature [] = some 1 from rfl, hsub]

end Anagram

namespace Anagram

/-! ## The iterative pipeline - C2 and C9 -/

theorem prepareData_eq (d : Dict) (words : List String) :
    prepareData d words =
      match wordSignature (((String.join words).data).map Char.toLower) with
      | none => none
      | some s => some (((String.join words).data).map Char.toLower, s,
          subWordSignatures d (((String.join words).data).map Char.toLower)) := rfl

theorem mem_combsBySize {d : Dict} {base : List Char} {perms : List Nat}
    {size : Nat} {c : List Nat} :
    c ∈ combsBySize d base perms size ↔
      (c.Sublist perms ∧ c.length = size) ∧ preFilter d base c = true := by
  unfold combsBySize
  rw [List.mem_filter, List.mem_dedup, List.mem_sublistsLen]

theorem mem_allCombsList {d : Dict} {base : List Char} {perms : List Nat}
    {mw : Nat} {c : List Nat} :
    c ∈ allCombsList d base perms mw ↔
      ∃ k, k ∈ List.range' 1 (mw - 1) ∧ c ∈ combsBySize d base perms k := by
  unfold allCombsList
  simp

/-- C2: whatever order the worker pool returns results in (any permutation of
the generated combination stream), every combination that survives
`prod_and_filter` and is printed has summed first-word length equal to the
phrase length (it passed `pre_filter`) and signature product equal to the
phrase signature. -/
theorem C2_emitted_combinations_valid (d : Dict) (words : List String)
    (base : List Char) (baseSig : Nat) (perms : List Nat)
    (hprep : prepareData d words = some (base, baseSig, perms))
    (lp : List (List Nat))
    (hperm : lp.Perm (allCombsList d base perms (maxWordsOf base)))
    (c : List Nat)
    (hc : c ∈ (lp.filterMap (prodAndFilter baseSig)).filter (fun x => !x.isEmpty)) :
    (c.map (fun x => ((dGet d x).headD "").length)).sum = base.length ∧
    prodL c = baseSig := by
  have hc1 : c ∈ lp.filterMap (prodAndFilter baseSig) := (List.mem_filter.mp hc).1
  rcases List.mem_filterMap.mp hc1 with ⟨a, ha, hpa⟩
  unfold prodAndFilter at hpa
  by_cases hprod : prodL a = baseSig
  · rw [if_pos hprod] at hpa
    obtain rfl := Option.some.inj hpa
    refine ⟨?_, hprod⟩
    have hmem : a ∈ allCombsList d base perms (maxWordsOf base) :=
      hperm.mem_iff.mp ha
    rcases mem_allCombsList.mp hmem with ⟨k, _, hck⟩
    have hpf := (mem_combsBySize.mp hck).2
    unfold preFilter at hpf
    exact of_decide_eq_true hpf
  · rw [if_neg hprod] at hpa
    cases hpa

/-- Witness for C2: phrase `abc` with a dictionary containing only `abc`
(signature 30); the emitted combination `[30]` has summed length 3 and
product 30. -/
theorem C2_witness :
    (([30] : List Nat).map
        (fun x => ((dGet (fun n => if n = 30 then some ["abc"] else none) x).headD
          "").length)).sum = (['a', 'b', 'c'] : List Char).length ∧
    prodL [30] = 30 := by
  have hsub : subWordSignatures (fun n => if n = 30 then some ["abc"] else none)
      ['a', 'b', 'c'] = [30] :=
    subWordSignatures_eq_single _ _ _ (by decide)
  have hprep : prepareData (fun n => if n = 30 then some ["abc"] else none) ["abc"] =
      some (['a', 'b', 'c'], 30, [30]) := by
    unfold prepareData
    simp only [show ((String.join ["abc"]).data).map Char.toLower =
      (['a', 'b', 'c'] : List Char) from rfl]
    rw [show wordSignature ['a', 'b', 'c'] = some 30 from rfl, hsub]
  apply C2_emitted_combinations_valid _ ["abc"] _ _ _ hprep [[30]] ?_ [30] ?_
  · have : allCombsList (fun n => if n = 30 then some ["abc"] else none)
        ['a', 'b', 'c'] [30] (maxWordsOf ['a', 'b', 'c']) = [[30]] := by decide
    rw [this]
  · decide

theorem subWordSignatures_nodup (d : Dict) (w : List Char) :
    (subWordSignatures d w).Nodup := by
  unfold subWordSignatures
  have h1 : (((((List.range' 1 w.length).map (fun i => List.sublistsLen i w)).flatten).filterMap
      wordSignature).dedup.filter (fun s => (d s).isSome)).Nodup :=
    (List.nodup_dedup _).filter _
  exact ((List.mergeSort_perm _ _).nodup_iff).mpr h1

/-- C9: `max_words` is exactly `min(round(len(base)/4) + 1, 5)` with Python's
half-to-even rounding; the generated stream is exactly the pre-filtered
size-`k` combinations for `k` ranging over `1 .. max_words - 1`; and every
generated combination at size `k` is a size-`k` subset of the sub-signature
list, each sub-signature appearing at most once. -/
theorem C9_sizes_and_max_words (d : Dict) (words : List String)
    (base : List Char) (baseSig : Nat) (perms : List Nat)
    (hprep : prepareData d words = some (base, baseSig, perms)) :
    maxWordsOf base = min (roundHalfEvenDiv4 base.length + 1) 5 ∧
    (∀ c, c ∈ allCombsList d base perms (maxWordsOf base) ↔
      ∃ k, k ∈ List.range' 1 (maxWordsOf base - 1) ∧ c ∈ combsBySize d base perms k) ∧
    (∀ k c, c ∈ combsBySize d base perms k →
      c.length = k ∧ c.Sublist perms ∧ c.Nodup) := by
  have hperms : perms = subWordSignatures d base := by
    rw [prepareData_eq] at hprep
    cases hws : wordSignature (((String.join words).data).map Char.toLower) with
    | none => rw [hws] at hprep; cases hprep
    | some s =>
      rw [hws] at hprep
      simp only [Option.some.injEq, Prod.mk.injEq] at hprep
      rcases hprep with ⟨hbase, -, hperms⟩
      rw [← hperms, hbase]
  refine ⟨rfl, fun c => mem_allCombsList, ?_⟩
  intro k c hc
  have h := mem_combsBySize.mp hc
  refine ⟨h.1.2, h.1.1, ?_⟩
  have hnodup : perms.Nodup := hperms ▸ subWordSignatures_nodup d base
  exact h.1.1.nodup hnodup

/-- Witness for C9: phrase `ab` with a dictionary containing only `ab`
(signature 6). -/
theorem C9_witness :
    maxWordsOf ['a', 'b'] = min (roundHalfEvenDiv4 2 + 1) 5 ∧
    (∀ c, c ∈ allCombsList (fun n => if n = 6 then some ["ab"] else none)
        ['a', 'b'] [6] (maxWordsOf ['a', 'b']) ↔
      ∃ k, k ∈ List.range' 1 (maxWordsOf ['a', 'b'] - 1) ∧
        c ∈ combsBySize (fun n => if n = 6 then some ["ab"] else none) ['a', 'b'] [6] k) ∧
    (∀ k c, c ∈ combsBySize (fun n => if n = 6 then some ["ab"] else none)
        ['a', 'b'] [6] k → c.length = k ∧ c.Sublist [6] ∧ c.Nodup) := by
  have hsub : subWordSignatures (fun n => if n = 6 then some ["ab"] else none)
      ['a', 'b'] = [6] :=
    subWordSignatures_eq_single _ _ _ (by decide)
  have hprep : prepareData (fun n => if n = 6 then some ["ab"] else none) ["ab"] =
      some (['a', 'b'], 6, [6]) := by
    unfold prepareData
    simp only [show ((String.join ["ab"]).data).map Char.toLower =
      (['a', 'b'] : List Char) from rfl]
    rw [show wordSignature ['a', 'b'] = some 6 from rfl, hsub]
  have h := C9_sizes_and_max_words _ ["ab"] _ _ _ hprep
  have hlen : (['a', 'b'] : List Char).length = 2 := rfl
  rw [hlen] at h
  exact h

end Anagram

namespace Anagram

/-! ## C7: the two output shapes of the recursive factorizer -/

/-- C7 fails as stated: at `value = 2^54 + 1` over the factor list `[2^54]`
(which does NOT divide the value), `factor_to_tree` finds no decomposition,
but `factor`'s float comparison `value/number == 1` is TRUE (the quotient
`1 + 2^-54` rounds to the double `1.0`), so `factor` returns the terminal
word list - the two shapes encode different decomposition sets. -/
theorem C7_counterexample :
    factorToTree (fun n => if n = 18014398509481985 ∨ n = 18014398509481984 then
        some ["x"] else none) 5 18014398509481985 [18014398509481984] = some [] ∧
    factorF (fun n => if n = 18014398509481985 ∨ n = 18014398509481984 then
        some ["x"] else none) 5 18014398509481985 [18014398509481984] =
      some (.words ["x"]) ∧
    treeForestDecomps [] ≠ jvalDecomps (.words ["x"]) := by
  refine ⟨rfl, rfl, ?_⟩
  have h1 : treeForestDecomps [] = [] := rfl
  have h2 : jvalDecomps (.words ["x"]) = [([], ["x"])] := by simp [jvalDecomps]
  rw [h1, h2]
  simp

theorem jOfSig_eq (d : Dict) (v : Nat) (f : List NodeS) :
    jOfSig d v f =
      if isLeafSingleton v f then .words (dGet d v)
      else .forest (f.map
        (fun t => (pyStr (dGet d t.value), jOfSig d (v / t.value) t.children))) := by
  by_cases h : isLeafSingleton v f
  · rw [jOfSig, if_pos h, if_pos h]
  · rw [jOfSig, if_neg h, if_neg h]
    exact congrArg JVal.forest
      (list_attach_map f (fun t => (pyStr (dGet d t.value), jOfSig d (v / t.value) t.children)))

theorem isLeafSingleton_eq_true {v : Nat} {f : List NodeS} :
    isLeafSingleton v f = true ↔ f = [NodeS.mk v []] := by
  cases f with
  | nil => simp [isLeafSingleton]
  | cons t ts =>
    cases t with
    | mk n cs =>
      cases cs with
      | nil =>
        cases ts with
        | nil =>
          show (n == v) = true ↔ [NodeS.mk n []] = [NodeS.mk v []]
          rw [beq_iff_eq]
          constructor
          · rintro rfl
            rfl
          · intro h
            injection h with h1 h2
            injection h1 with h3 h4
        | cons _ _ => simp [isLeafSingleton]
      | cons _ _ =>
        cases ts with
        | nil => simp [isLeafSingleton]
        | cons _ _ => simp [isLeafSingleton]

end Anagram

namespace Anagram

theorem jLoop_eq_loopExpect (d : Dict) {v : Nat} {ns : List Nat}
    {recurS : Nat → Option (List NodeS)} {recurJ : Nat → Option JVal}
    (hv53 : v < 2 ^ 53) (h1 : 1 ≤ v) (hns : ∀ n ∈ ns, 2 ≤ n)
    (hd : ∀ n ∈ ns, dGet d n ≠ [])
    (hrec : ∀ q, 1 ≤ q → q < v → recurJ q = (recurS q).map (jOfSig d q))
    (hshape : ∀ q f, recurS q = some f → ∀ t ∈ f,
      (t = NodeS.mk q [] ∧ q ∈ ns) ∨ (t.value ∈ ns ∧ t.value ≠ q ∧ t.children ≠ [])) :
    ∀ rest, rest ⊆ ns →
      jLoop d recurJ v rest = (ftLoopSig recurS v rest).map (loopExpect d v) := by
  intro rest
  induction rest with
  | nil => intro _; rfl
  | cons n rest ih =>
    intro hsub
    have hnns : n ∈ ns := hsub (List.mem_cons_self _ _)
    have h2n : 2 ≤ n := hns n hnns
    have ihr := ih (fun x hx => hsub (List.mem_cons_of_mem _ hx))
    rw [jLoop_cons, ftLoopSig_cons]
    by_cases h1n : v = n
    · have hq1 : pyIntDiv v n = 1 := by
        unfold pyIntDiv
        rw [h1n, Nat.div_self (by omega)]
        exact roundEven53_small (by norm_num)
      rw [if_pos h1n,
        if_neg (show ¬ n = 0 by omega),
        if_neg (show ¬ (v % n = 0 ∧ pyIntDiv v n ≠ 1) from fun hc => hc.2 hq1),
        if_pos ((floatDivEqOne_iff hv53 (by omega)).mpr h1n)]
      rfl
    · by_cases h3 : v % n = 0
      · have hdvd : n ∣ v := Nat.dvd_of_mod_eq_zero h3
        have hqe : pyIntDiv v n = v / n := pyIntDiv_exact hv53
        have hvq : n * (v / n) = v := Nat.mul_div_cancel' hdvd
        have hq2 : 2 ≤ v / n := by
          rcases Nat.lt_or_ge (v / n) 2 with hlt | hge
          · exfalso
            have hq1le : 1 ≤ v / n := (Nat.one_le_div_iff (by omega)).mpr
              (Nat.le_of_dvd (by omega) hdvd)
            have hone : v / n = 1 := by omega
            rw [hone] at hvq
            apply h1n
            omega
          · exact hge
        have hq1' : 1 ≤ pyIntDiv v n := by omega
        have hqlt : pyIntDiv v n < v := by
          rw [hqe]
          exact Nat.div_lt_self (by omega) (by omega)
        rw [if_neg h1n, if_neg (show ¬ n = 0 by omega), if_neg (show ¬ n = 0 by omega),
          if_pos (show v % n = 0 ∧ pyIntDiv v n ≠ 1 from ⟨h3, by omega⟩),
          if_pos h3, hrec (pyIntDiv v n) hq1' hqlt]
        cases hs : recurS (pyIntDiv v n) with
        | none => rfl
        | some Fq =>
          rw [ihr]
          cases hl : ftLoopSig recurS v rest with
          | none => rfl
          | some L =>
            cases L with
            | early f' => rfl
            | done tail =>
              have hcond : 0 < (jOfSig d (pyIntDiv v n) Fq).pyLen ↔ 0 < Fq.length := by
                by_cases hsing : isLeafSingleton (pyIntDiv v n) Fq
                · have hFq := isLeafSingleton_eq_true.mp hsing
                  rw [jOfSig_eq, if_pos hsing]
                  have hqns : pyIntDiv v n ∈ ns := by
                    have hmem : NodeS.mk (pyIntDiv v n) [] ∈ Fq := by
                      rw [hFq]
                      exact List.mem_singleton_self _
                    rcases hshape _ _ hs _ hmem with ⟨-, hq⟩ | ⟨-, -, hch⟩
                    · exact hq
                    · exact absurd rfl hch
                  constructor
                  · intro _
                    rw [hFq]
                    simp
                  · intro _
                    show 0 < (dGet d (pyIntDiv v n)).length
                    have hne := hd _ hqns
                    cases hdg : dGet d (pyIntDiv v n) with
                    | nil => exact absurd hdg hne
                    | cons _ _ => simp
                · rw [jOfSig_eq, if_neg hsing]
                  show 0 < (Fq.map _).length ↔ _
                  rw [List.length_map]
              simp only [Option.map_some', loopExpect]
              by_cases hlen : Fq.length > 0
              · rw [if_pos hlen, if_pos (hcond.mpr hlen)]
                simp only [List.map_cons, NodeS.value, NodeS.children, hqe]
              · rw [if_neg hlen, if_neg (fun hc => hlen (hcond.mp hc))]
      · rw [if_neg h1n, if_neg (show ¬ n = 0 by omega), if_neg (show ¬ n = 0 by omega),
          if_neg (show ¬ (v % n = 0 ∧ pyIntDiv v n ≠ 1) from fun hc => h3 hc.1),
          if_neg (show ¬ (floatDivEqOne v n = true) from
            fun h => h1n ((floatDivEqOne_iff hv53 (by omega)).mp h)),
          if_neg h3]
        exact ihr

theorem factorF_eq_jOfSig (d : Dict) {ns : List Nat} (hns : ∀ n ∈ ns, 2 ≤ n)
    (hd : ∀ n ∈ ns, dGet d n ≠ []) :
    ∀ v, 1 ≤ v → v < 2 ^ 53 → ∀ fuel, v < fuel →
      factorF d fuel v ns = (factorToTreeSig fuel v ns).map (jOfSig d v) := by
  intro v
  induction v using Nat.strong_induction_on with
  | _ v ih =>
    intro h1 h53 fuel hf
    obtain ⟨fuel', rfl⟩ : ∃ f, fuel = f + 1 := ⟨fuel - 1, by omega⟩
    have hrec : ∀ q, 1 ≤ q → q < v →
        factorF d fuel' q ns = (factorToTreeSig fuel' q ns).map (jOfSig d q) :=
      fun q hq1 hqv => ih q hqv hq1 (by omega) fuel' (by omega)
    have hshape : ∀ q f, factorToTreeSig fuel' q ns = some f → ∀ t ∈ f,
        (t = NodeS.mk q [] ∧ q ∈ ns) ∨ (t.value ∈ ns ∧ t.value ≠ q ∧ t.children ≠ []) :=
      fun q f hsf => factorToTreeSig_shape hsf
    rw [factorF_unfold, factorToTreeSig_unfold,
      @jLoop_eq_loopExpect d v ns (fun q => factorToTreeSig fuel' q ns)
        (fun q => factorF d fuel' q ns) h53 h1 hns hd hrec hshape ns
        (fun x hx => hx)]
    cases hl : ftLoopSig (fun q => factorToTreeSig fuel' q ns) v ns with
    | none => rfl
    | some L =>
      have hsl := @ftLoopSig_shape (fun q => factorToTreeSig fuel' q ns) v ns
        ns (fun x hx => hx)
      cases L with
      | early f' =>
        have hE := hsl.1 f' hl
        simp only [Option.map_some', loopExpect, Loop.out]
        rw [jOfSig_eq, if_pos (isLeafSingleton_eq_true.mpr hE.1)]
      | done f' =>
        have hD := hsl.2 f' hl
        have hnotsing : ¬ isLeafSingleton v f' = true := by
          intro hsing
          have hf' := isLeafSingleton_eq_true.mp hsing
          have hmem : NodeS.mk v [] ∈ f' := by
            rw [hf']
            exact List.mem_singleton_self _
          rcases hD _ hmem with ⟨-, hne, -⟩
          exact hne rfl
        simp only [Option.map_some', loopExpect, Loop.out]
        rw [jOfSig_eq, if_neg hnotsing]

/-- C7 amended: in the exact-arithmetic regime (value below `2^53`, dictionary
factors at least 2 with non-empty word lists), the two output shapes really do
encode the same decomposition logic: both `factor_to_tree` and `factor` are
relabellings (`relabelNode`, resp. `jOfSig`) of one shared numeric skeleton,
so either can be derived from the other.  Outside that regime the two diverge
(see the counterexample). -/
theorem C7_amended_shapes_from_one_skeleton (d : Dict) (v fuel : Nat)
    (ns : List Nat) (h1 : 1 ≤ v) (h53 : v < 2 ^ 53) (hns : ∀ n ∈ ns, 2 ≤ n)
    (hd : ∀ n ∈ ns, dGet d n ≠ []) (hf : v < fuel) :
    factorToTree d fuel v ns =
      (factorToTreeSig fuel v ns).map (List.map (relabelNode d)) ∧
    factorF d fuel v ns = (factorToTreeSig fuel v ns).map (jOfSig d v) :=
  ⟨factorToTree_eq_relabel d fuel v ns, factorF_eq_jOfSig d hns hd v h1 h53 fuel hf⟩

/-- Witness for the amended C7 at value 6 over factors `[2, 3]`. -/
theorem C7_witness :
    factorToTree (fun _ => some ["w"]) 7 6 [2, 3] =
      (factorToTreeSig 7 6 [2, 3]).map (List.map (relabelNode (fun _ => some ["w"]))) ∧
    factorF (fun _ => some ["w"]) 7 6 [2, 3] =
      (factorToTreeSig 7 6 [2, 3]).map (jOfSig (fun _ => some ["w"]) 6) :=
  C7_amended_shapes_from_one_skeleton (fun _ => some ["w"]) 6 7 [2, 3]
    (by norm_num) (by norm_num) (by decide) (by decide) (by norm_num)

end Anagram
